import Mathlib

/-!
# Verification of the JAI judicial-assistance retrieval engine

Shallow embedding of `src/JAI.py`: the semantic retrieval engine
(`load_qas`, `answer_question`), the session/conversation state, and the
registration handler.

Modelling conventions:
* Embedding vectors are `List ℚ`.  Floating-point arithmetic is modelled by
  exact rational arithmetic; "within floating-point tolerance" statements
  become exact equalities.
* The L2 norm computed by `np.linalg.norm` is irrational in general, so
  wherever the source divides by a computed norm the model takes the norm
  value as an explicit argument constrained by the predicate `IsL2Norm`
  (`0 ≤ r` and `r * r` equals the sum of squares).  In ℚ, division by zero
  yields `0`; the source propagates NaN/Inf there.  Either way the resulting
  row is junk (not unit-norm) and no error is raised, which is exactly what
  the zero-vector claims are about.
* `model.encode([q])` followed by the query-side L2 normalization
  (lines 155-156 of `JAI.py`) is modelled as one opaque deterministic
  function `encode : String → List ℚ`, as the spec treats the Embedding
  Provider as an opaque function.
* `np.argmax` over the score column `EMB @ v.T` is `argmax` below: index of
  the maximum, first occurrence on ties.
* `load_qas` reads all documents from MongoDB and stacks/normalizes their
  embeddings.  A MongoDB/NumPy failure that halts the Streamlit script run
  (unreachable store; the `np.linalg.norm(…, axis=1, …)` axis error raised
  on the empty stacked array when zero records are returned) is modelled as
  `Except.error` of a `DataLoadError`.
-/

set_option autoImplicit false

namespace JAI

/-- One document of the `sq_ans` collection: reference question, answer text
and precomputed raw embedding (`AnswerRecord` in the spec). -/
structure Doc where
  question : String
  answer : String
  embedding : List ℚ
deriving DecidableEq, Inhabited

/-- Dot product of two vectors, `u · v` (truncating at the shorter list;
the source arrays always share the embedding dimension). -/
def dot (u v : List ℚ) : ℚ := (List.zipWith (· * ·) u v).sum

/-- Sum of squares of a vector: the square of its L2 norm. -/
def sumSq (v : List ℚ) : ℚ := dot v v

/-- Predicate: `r` is the L2 norm of `v`, nonnegative square root of the sum of
squares.  This is the value `np.linalg.norm` computes for a row. -/
def IsL2Norm (r : ℚ) (v : List ℚ) : Prop := 0 ≤ r ∧ r * r = sumSq v

/-- Componentwise division of a vector by its (precomputed) norm value:
the elementwise `emb /= np.linalg.norm(emb, axis=1, keepdims=True)` and
`v /= np.linalg.norm(v, axis=1, keepdims=True)` of the source, with the
norm passed explicitly (see `IsL2Norm`). -/
def divByNorm (r : ℚ) (v : List ℚ) : List ℚ := v.map (· / r)

/-- Startup failures of corpus loading (spec §7 `DataLoadError`): the
Answer Store is unreachable, or it returned zero records. -/
inductive DataLoadError where
  | unreachable
  | emptyCorpus
deriving DecidableEq

/-- Corpus loader `load_qas` (lines 109-114): read all docs, stack their embeddings and
L2-normalize each row, returning `(docs, EMB)`.

`reachable` models whether MongoDB answers (the source pings it at startup
and `st.stop()`s on failure; a later `find` raises); `norms` are the
per-row L2 norm values `np.linalg.norm(emb, axis=1, keepdims=True)`
computes (irrational in general, hence passed in; see `IsL2Norm`).
With zero records the source crashes inside `np.linalg.norm` (axis 1 of a
1-D empty array), halting the script run: modelled as
`DataLoadError.emptyCorpus`. -/
def load_qas (reachable : Bool) (docs : List Doc) (norms : List ℚ) :
    Except DataLoadError (List Doc × List (List ℚ)) :=
  if reachable = false then .error .unreachable
  else if docs = [] then .error .emptyCorpus
  else .ok (docs, List.zipWith divByNorm norms (docs.map Doc.embedding))

/-- Model of `np.argmax`: index of the maximum entry, first occurrence on ties
(`np.argmax` documents exactly this).  On the empty list the source raises;
the model returns the junk value `0`, unused under the non-empty corpus
hypothesis. -/
def argmax : List ℚ → Nat
  | [] => 0
  | x :: xs => if x < xs.getD (argmax xs) x then argmax xs + 1 else 0

/-- Python's `str.strip()` (line 153): remove leading and trailing
whitespace.  Defined by structural recursion over the character list so
that it evaluates on concrete strings. -/
def strip (s : String) : String :=
  ⟨((s.data.dropWhile Char.isWhitespace).reverse.dropWhile
      Char.isWhitespace).reverse⟩

/-- The per-session UI state (`st.session_state`): the ordered chat
transcript (`ConversationTurn` sequence) and the text-input contents. -/
structure UIState where
  chat : List (String × String)
  input_text : String
deriving DecidableEq

/-- The similarity scores `EMB @ v.T` of a query vector `v` against every
corpus row: row `i` of the column is `dot (EMB i) v`. -/
def scoresOf (EMB : List (List ℚ)) (v : List ℚ) : List ℚ :=
  EMB.map (fun row => dot row v)

/-- Query handler `answer_question` (lines 152-160): trim the input; on blank input
return unchanged; otherwise encode (+ normalize) the query, score it
against every corpus row, take the argmax index, and append
`(query, answer)` to the chat, clearing the input box.

`encode` is `model.encode([q])` composed with the query-side L2
normalization of lines 155-156 (opaque deterministic Embedding Provider).
The source's `qa_docs[idx]` is modelled with `List.getD … default`; the
theorems establish `idx` is in range whenever the corpus is non-empty. -/
def answer_question (encode : String → List ℚ) (qa_docs : List Doc)
    (EMB : List (List ℚ)) (s : UIState) : UIState :=
  let q := strip s.input_text
  if q = "" then s
  else
    let v := encode q
    let idx := argmax (scoresOf EMB v)
    let ans := (qa_docs.getD idx default).answer
    { chat := s.chat ++ [(q, ans)], input_text := "" }

/-- One user document of the `users` collection (spec `UserCredential`):
`password` holds the bcrypt hash, never the raw password. -/
structure UserRec where
  username : String
  name : String
  email : String
  password : String
deriving DecidableEq, Inhabited

/-- Model of the MongoDB lookup `user_col.find_one` by username: first
stored record with the given username, if any. -/
def find_one (store : List UserRec) (u : String) : Option UserRec :=
  store.find? (fun r => r.username = u)

/-- Registration conflict (spec §7 `AlreadyExistsError`): the username is
already present; the source shows `st.warning` and writes nothing. -/
inductive AlreadyExistsError where
  | alreadyExists
deriving DecidableEq

/-- The registration form handler (lines 79-84) together with `add_user`
(lines 43-47): if the username already exists, warn and write nothing;
otherwise insert a record whose `password` field is
`bcrypt.hashpw(raw_pwd, bcrypt.gensalt())`.

`hashpw` models `bcrypt.hashpw` (raw password and salt to hash) and
`salt` the fresh `bcrypt.gensalt()` value; both are opaque externals. -/
def registerHandler (hashpw : String → String → String) (salt : String)
    (store : List UserRec) (username nm email rawPwd : String) :
    List UserRec × Option AlreadyExistsError :=
  if (find_one store username).isSome then (store, some .alreadyExists)
  else (store ++ [⟨username, nm, email, hashpw rawPwd salt⟩], none)

/-! ## Helper lemmas -/

theorem dot_nil_left (v : List ℚ) : dot [] v = 0 := rfl

theorem dot_nil_right (u : List ℚ) : dot u [] = 0 := by
  cases u <;> rfl

theorem dot_cons (x y : ℚ) (u v : List ℚ) :
    dot (x :: u) (y :: v) = x * y + dot u v := rfl

theorem sumSq_nil : sumSq ([] : List ℚ) = 0 := rfl

theorem sumSq_cons (x : ℚ) (v : List ℚ) :
    sumSq (x :: v) = x * x + sumSq v := rfl

theorem sumSq_nonneg (v : List ℚ) : 0 ≤ sumSq v := by
  induction v with
  | nil => simp [sumSq_nil]
  | cons x v ih => rw [sumSq_cons]; nlinarith [mul_self_nonneg x]

theorem two_mul_dot_le (u : List ℚ) :
    ∀ v : List ℚ, 2 * dot u v ≤ sumSq u + sumSq v := by
  induction u with
  | nil =>
      intro v
      have := sumSq_nonneg v
      simp [dot_nil_left, sumSq_nil]; linarith
  | cons x u ih =>
      intro v
      cases v with
      | nil =>
          have := sumSq_nonneg (x :: u)
          simp [dot_nil_right, sumSq_nil]; linarith
      | cons y v =>
          have h1 := ih v
          have h2 : 2 * (x * y) ≤ x * x + y * y := by nlinarith [sq_nonneg (x - y)]
          rw [dot_cons, sumSq_cons, sumSq_cons]
          linarith

/-- Cauchy–Schwarz style bound: the dot product of two unit vectors is at
most `1`. -/
theorem dot_le_one (u v : List ℚ) (hu : sumSq u = 1) (hv : sumSq v = 1) :
    dot u v ≤ 1 := by
  have := two_mul_dot_le u v
  rw [hu, hv] at this
  linarith

theorem sumSq_divByNorm (r : ℚ) (v : List ℚ) :
    sumSq (divByNorm r v) = sumSq v / (r * r) := by
  induction v with
  | nil => simp [divByNorm, sumSq_nil]
  | cons x v ih =>
      rw [sumSq_cons]
      show sumSq (x / r :: v.map (· / r)) = (x * x + sumSq v) / (r * r)
      rw [sumSq_cons]
      show x / r * (x / r) + sumSq (divByNorm r v) = (x * x + sumSq v) / (r * r)
      rw [ih, div_mul_div_comm, div_add_div_same]

theorem getD_default_eq (l : List ℚ) :
    ∀ (n : Nat) (d₁ d₂ : ℚ), n < l.length → l.getD n d₁ = l.getD n d₂ := by
  induction l with
  | nil => intro n d₁ d₂ h; simp at h
  | cons x l ih =>
      intro n d₁ d₂ h
      cases n with
      | zero => rfl
      | succ m =>
          simp only [List.getD_cons_succ]
          exact ih m d₁ d₂ (by simpa using h)

theorem getD_mem {α : Type} (l : List α) :
    ∀ (n : Nat) (d : α), n < l.length → l.getD n d ∈ l := by
  induction l with
  | nil => intro n d h; simp at h
  | cons x l ih =>
      intro n d h
      cases n with
      | zero => simp
      | succ m =>
          simp only [List.getD_cons_succ]
          exact List.mem_cons_of_mem x (ih m d (by simpa using h))

theorem getD_scoresOf (v : List ℚ) (l : List (List ℚ)) :
    ∀ n : Nat, n < l.length → (scoresOf l v).getD n 0 = dot (l.getD n []) v := by
  induction l with
  | nil => intro n h; simp at h
  | cons x l ih =>
      intro n h
      cases n with
      | zero => rfl
      | succ m =>
          simp only [scoresOf, List.map_cons, List.getD_cons_succ]
          exact ih m (by simpa using h)

theorem getD_map_embedding (docs : List Doc) :
    ∀ n : Nat, n < docs.length →
    (docs.map Doc.embedding).getD n [] = (docs.getD n default).embedding := by
  induction docs with
  | nil => intro n h; simp at h
  | cons x l ih =>
      intro n h
      cases n with
      | zero => rfl
      | succ m =>
          simp only [List.map_cons, List.getD_cons_succ]
          exact ih m (by simpa using h)

theorem getD_zipWith_divByNorm (norms : List ℚ) :
    ∀ (embs : List (List ℚ)) (n : Nat), n < norms.length → n < embs.length →
    (List.zipWith divByNorm norms embs).getD n [] =
      divByNorm (norms.getD n 0) (embs.getD n []) := by
  induction norms with
  | nil => intro embs n h _; simp at h
  | cons r norms ih =>
      intro embs n h1 h2
      cases embs with
      | nil => simp at h2
      | cons e embs =>
          cases n with
          | zero => rfl
          | succ m =>
              simp only [List.zipWith_cons_cons, List.getD_cons_succ]
              exact ih embs m (by simpa using h1) (by simpa using h2)

/-! ## `argmax` lemmas: NumPy first-occurrence argmax -/

theorem argmax_lt_length (l : List ℚ) (h : l ≠ []) : argmax l < l.length := by
  induction l with
  | nil => exact absurd rfl h
  | cons x xs ih =>
      by_cases hc : x < xs.getD (argmax xs) x
      · have hxs : xs ≠ [] := by
          intro he; rw [he] at hc; exact lt_irrefl x hc
        simp only [argmax, if_pos hc, List.length_cons]
        exact Nat.succ_lt_succ (ih hxs)
      · simp only [argmax, if_neg hc, List.length_cons]
        exact Nat.succ_pos _

theorem getD_le_argmax (l : List ℚ) :
    ∀ j : Nat, j < l.length → l.getD j 0 ≤ l.getD (argmax l) 0 := by
  induction l with
  | nil => intro j h; simp at h
  | cons x xs ih =>
      intro j hj
      by_cases hc : x < xs.getD (argmax xs) x
      · have hxs : xs ≠ [] := by
          intro he; rw [he] at hc; exact lt_irrefl x hc
        have hax : argmax xs < xs.length := argmax_lt_length xs hxs
        simp only [argmax, if_pos hc, List.getD_cons_succ]
        cases j with
        | zero =>
            simp only [List.getD_cons_zero]
            calc x ≤ xs.getD (argmax xs) x := le_of_lt hc
              _ = xs.getD (argmax xs) 0 := getD_default_eq xs _ x 0 hax
        | succ m =>
            simp only [List.getD_cons_succ]
            exact ih m (by simpa using hj)
      · simp only [argmax, if_neg hc, List.getD_cons_zero]
        cases j with
        | zero => simp
        | succ m =>
            have hm : m < xs.length := by simpa using hj
            have hxs : xs ≠ [] := by
              intro he; rw [he] at hm; simp at hm
            have hax : argmax xs < xs.length := argmax_lt_length xs hxs
            simp only [List.getD_cons_succ]
            calc xs.getD m 0 ≤ xs.getD (argmax xs) 0 := ih m hm
              _ = xs.getD (argmax xs) x := getD_default_eq xs _ 0 x hax
              _ ≤ x := not_lt.mp hc

theorem getD_lt_of_lt_argmax (l : List ℚ) :
    ∀ j : Nat, j < argmax l → l.getD j 0 < l.getD (argmax l) 0 := by
  induction l with
  | nil => intro j h; simp [argmax] at h
  | cons x xs ih =>
      intro j hj
      by_cases hc : x < xs.getD (argmax xs) x
      · have hxs : xs ≠ [] := by
          intro he; rw [he] at hc; exact lt_irrefl x hc
        have hax : argmax xs < xs.length := argmax_lt_length xs hxs
        rw [argmax, if_pos hc] at hj ⊢
        rw [List.getD_cons_succ]
        cases j with
        | zero =>
            simp only [List.getD_cons_zero]
            calc x < xs.getD (argmax xs) x := hc
              _ = xs.getD (argmax xs) 0 := getD_default_eq xs _ x 0 hax
        | succ m =>
            simp only [List.getD_cons_succ]
            exact ih m (by omega)
      · rw [argmax, if_neg hc] at hj
        simp at hj

/-- The first-occurrence argmax is the least index attaining the maximum:
any index `j` whose entry is maximal satisfies `argmax l ≤ j`, and the two
entries agree. -/
theorem argmax_least (l : List ℚ) (j : Nat) (hj : j < l.length)
    (hmax : ∀ k : Nat, k < l.length → l.getD k 0 ≤ l.getD j 0) :
    argmax l ≤ j ∧ l.getD (argmax l) 0 = l.getD j 0 := by
  have hne : l ≠ [] := by
    intro he; rw [he] at hj; simp at hj
  have hax : argmax l < l.length := argmax_lt_length l hne
  constructor
  · by_contra hlt
    push_neg at hlt
    have h1 : l.getD j 0 < l.getD (argmax l) 0 := getD_lt_of_lt_argmax l j hlt
    have h2 : l.getD (argmax l) 0 ≤ l.getD j 0 := hmax _ hax
    exact absurd h1 (not_lt.mpr h2)
  · exact le_antisymm (hmax _ hax) (getD_le_argmax l j hj)

/-! ## Claim theorems -/

/-- Claim C8: for every input string that is empty or whitespace-only after
trimming, `answer_question` is a no-op: no `ConversationTurn` is appended
and the whole session state (in particular the chat sequence) is
unchanged. -/
theorem blank_query_noop (encode : String → List ℚ) (qa_docs : List Doc)
    (EMB : List (List ℚ)) (s : UIState) (h : strip s.input_text = "") :
    answer_question encode qa_docs EMB s = s := by
  simp [answer_question, h]

theorem blank_query_noop_witness :
    answer_question (fun _ => [1]) [⟨"q", "a", [1]⟩] [[1]]
      ⟨[("old", "turn")], " \t "⟩ = ⟨[("old", "turn")], " \t "⟩ :=
  blank_query_noop (fun _ => [1]) [⟨"q", "a", [1]⟩] [[1]]
    ⟨[("old", "turn")], " \t "⟩ (by decide)

/-- Claim C10: for input that is non-empty after trimming,
`answer_question` appends exactly one turn (the trimmed query paired with
the selected answer) at the end of the chat, leaves all earlier turns
unchanged, and resets `input_text` to `""`; for whitespace-only input the
state (including `input_text`) is left exactly as-is. -/
theorem answer_question_frame (encode : String → List ℚ) (qa_docs : List Doc)
    (EMB : List (List ℚ)) (s : UIState) :
    (strip s.input_text ≠ "" →
      answer_question encode qa_docs EMB s =
        { chat := s.chat ++ [(strip s.input_text,
            (qa_docs.getD (argmax (scoresOf EMB (encode (strip s.input_text))))
              default).answer)],
          input_text := "" }) ∧
    (strip s.input_text = "" →
      answer_question encode qa_docs EMB s = s) := by
  constructor
  · intro h
    simp [answer_question, h]
  · intro h
    simp [answer_question, h]

theorem answer_question_frame_witness :
    (answer_question (fun _ => [1]) [⟨"q", "a", [1]⟩] [[1]]
        ⟨[("old", "turn")], " hi "⟩ =
      { chat := [("old", "turn"), ("hi", "a")], input_text := "" }) ∧
    (answer_question (fun _ => [1]) [⟨"q", "a", [1]⟩] [[1]]
        ⟨[("old", "turn")], " "⟩ = ⟨[("old", "turn")], " "⟩) := by
  constructor
  · have h := (answer_question_frame (fun _ => [1]) [⟨"q", "a", [1]⟩] [[1]]
      ⟨[("old", "turn")], " hi "⟩).1 (by decide)
    rw [h]
    norm_num [strip, scoresOf, dot, argmax]
    decide
  · exact (answer_question_frame (fun _ => [1]) [⟨"q", "a", [1]⟩] [[1]]
      ⟨[("old", "turn")], " "⟩).2 (by decide)

/-- Claim C7: the answer computation is a deterministic pure function of
the query and the corpus: invoking `answer_question` twice in succession
with the identical input text appends the identical
`(trimmed query, answer)` turn both times. -/
theorem answer_question_idempotent (encode : String → List ℚ)
    (qa_docs : List Doc) (EMB : List (List ℚ))
    (c : List (String × String)) (q : String) (hq : strip q ≠ "") :
    ∃ a : String,
      (answer_question encode qa_docs EMB ⟨c, q⟩).chat = c ++ [(strip q, a)] ∧
      (answer_question encode qa_docs EMB
          ⟨(answer_question encode qa_docs EMB ⟨c, q⟩).chat, q⟩).chat =
        c ++ [(strip q, a), (strip q, a)] := by
  refine ⟨(qa_docs.getD (argmax (scoresOf EMB (encode (strip q))))
    default).answer, ?_, ?_⟩
  · simp [answer_question, hq]
  · simp [answer_question, hq]

theorem answer_question_idempotent_witness :
    ∃ a : String,
      (answer_question (fun _ => [1]) [⟨"q", "a", [1]⟩] [[1]]
        ⟨[], "hi"⟩).chat = [] ++ [(strip "hi", a)] ∧
      (answer_question (fun _ => [1]) [⟨"q", "a", [1]⟩] [[1]]
          ⟨(answer_question (fun _ => [1]) [⟨"q", "a", [1]⟩] [[1]]
            ⟨[], "hi"⟩).chat, "hi"⟩).chat =
        [] ++ [(strip "hi", a), (strip "hi", a)] :=
  answer_question_idempotent (fun _ => [1]) [⟨"q", "a", [1]⟩] [[1]]
    [] "hi" (by decide)

/-- Claim C1: for every non-empty corpus and every query that is non-empty
after trimming, `answer_question` appends exactly one answer, the selected
index is a valid row index of the corpus, and the selected record is a
member of the loaded corpus; no similarity threshold can make it return
nothing (the append is unconditional on the score values). -/
theorem answer_returns_member (encode : String → List ℚ) (qa_docs : List Doc)
    (EMB : List (List ℚ)) (s : UIState)
    (hne : qa_docs ≠ []) (hlen : EMB.length = qa_docs.length)
    (hq : strip s.input_text ≠ "") :
    argmax (scoresOf EMB (encode (strip s.input_text))) < qa_docs.length ∧
    (answer_question encode qa_docs EMB s).chat =
      s.chat ++ [(strip s.input_text,
        (qa_docs.getD (argmax (scoresOf EMB (encode (strip s.input_text))))
          default).answer)] ∧
    qa_docs.getD (argmax (scoresOf EMB (encode (strip s.input_text))))
      default ∈ qa_docs := by
  have hpos : 0 < qa_docs.length := List.length_pos.mpr hne
  have hslen : (scoresOf EMB (encode (strip s.input_text))).length =
      qa_docs.length := by
    simp [scoresOf, hlen]
  have hsne : scoresOf EMB (encode (strip s.input_text)) ≠ [] := by
    intro he
    rw [he] at hslen
    simp at hslen
    omega
  have hidx : argmax (scoresOf EMB (encode (strip s.input_text))) <
      qa_docs.length := by
    rw [← hslen]
    exact argmax_lt_length _ hsne
  refine ⟨hidx, ?_, getD_mem qa_docs _ default hidx⟩
  simp [answer_question, hq]

theorem answer_returns_member_witness :
    argmax (scoresOf [[1]] ((fun _ => [(1:ℚ)]) (strip "hi"))) <
      [(⟨"q", "a", [1]⟩ : Doc)].length ∧
    (answer_question (fun _ => [(1:ℚ)]) [⟨"q", "a", [1]⟩] [[1]]
        ⟨[], "hi"⟩).chat =
      [] ++ [(strip "hi",
        ([(⟨"q", "a", [1]⟩ : Doc)].getD
          (argmax (scoresOf [[1]] ((fun _ => [(1:ℚ)]) (strip "hi"))))
          default).answer)] ∧
    [(⟨"q", "a", [1]⟩ : Doc)].getD
      (argmax (scoresOf [[1]] ((fun _ => [(1:ℚ)]) (strip "hi"))))
      default ∈ [(⟨"q", "a", [1]⟩ : Doc)] :=
  answer_returns_member (fun _ => [(1:ℚ)]) [⟨"q", "a", [1]⟩] [[1]]
    ⟨[], "hi"⟩ (by decide) (by decide) (by decide)

/-- Claim C2: when two or more records attain the identical maximal
similarity score, `answer_question` selects the lowest such index: the
selected index is at most any index attaining the maximum, its score
agrees with that maximum, every strictly earlier index scores strictly
less (first occurrence under a deterministic max-scan), and the record at
the selected index is the one whose answer is appended. -/
theorem tie_break_lowest_index (encode : String → List ℚ)
    (qa_docs : List Doc) (EMB : List (List ℚ)) (s : UIState) (j : Nat)
    (hq : strip s.input_text ≠ "")
    (hj : j < EMB.length)
    (hmax : ∀ k : Nat, k < EMB.length →
      (scoresOf EMB (encode (strip s.input_text))).getD k 0 ≤
        (scoresOf EMB (encode (strip s.input_text))).getD j 0) :
    argmax (scoresOf EMB (encode (strip s.input_text))) ≤ j ∧
    (scoresOf EMB (encode (strip s.input_text))).getD
        (argmax (scoresOf EMB (encode (strip s.input_text)))) 0 =
      (scoresOf EMB (encode (strip s.input_text))).getD j 0 ∧
    (∀ k : Nat, k < argmax (scoresOf EMB (encode (strip s.input_text))) →
      (scoresOf EMB (encode (strip s.input_text))).getD k 0 <
        (scoresOf EMB (encode (strip s.input_text))).getD
          (argmax (scoresOf EMB (encode (strip s.input_text)))) 0) ∧
    (answer_question encode qa_docs EMB s).chat =
      s.chat ++ [(strip s.input_text,
        (qa_docs.getD (argmax (scoresOf EMB (encode (strip s.input_text))))
          default).answer)] := by
  have hslen : (scoresOf EMB (encode (strip s.input_text))).length =
      EMB.length := by
    simp [scoresOf]
  have hj2 : j < (scoresOf EMB (encode (strip s.input_text))).length := by
    rw [hslen]; exact hj
  have hmax2 : ∀ k : Nat,
      k < (scoresOf EMB (encode (strip s.input_text))).length →
      (scoresOf EMB (encode (strip s.input_text))).getD k 0 ≤
        (scoresOf EMB (encode (strip s.input_text))).getD j 0 := by
    intro k hk
    exact hmax k (by rw [← hslen]; exact hk)
  obtain ⟨h1, h2⟩ := argmax_least _ j hj2 hmax2
  refine ⟨h1, h2, ?_, ?_⟩
  · intro k hk
    exact getD_lt_of_lt_argmax _ k hk
  · simp [answer_question, hq]

theorem tie_break_lowest_index_witness :
    argmax (scoresOf [[1], [1]] ((fun _ => [(1:ℚ)]) (strip "hi"))) ≤ 1 ∧
    (scoresOf [[1], [1]] ((fun _ => [(1:ℚ)]) (strip "hi"))).getD
        (argmax (scoresOf [[1], [1]] ((fun _ => [(1:ℚ)]) (strip "hi")))) 0 =
      (scoresOf [[1], [1]] ((fun _ => [(1:ℚ)]) (strip "hi"))).getD 1 0 ∧
    (∀ k : Nat, k < argmax (scoresOf [[1], [1]] ((fun _ => [(1:ℚ)]) (strip "hi"))) →
      (scoresOf [[1], [1]] ((fun _ => [(1:ℚ)]) (strip "hi"))).getD k 0 <
        (scoresOf [[1], [1]] ((fun _ => [(1:ℚ)]) (strip "hi"))).getD
          (argmax (scoresOf [[1], [1]] ((fun _ => [(1:ℚ)]) (strip "hi")))) 0) ∧
    (answer_question (fun _ => [(1:ℚ)])
        [⟨"q0", "a0", [1]⟩, ⟨"q1", "a1", [1]⟩] [[1], [1]] ⟨[], "hi"⟩).chat =
      [] ++ [(strip "hi",
        ([(⟨"q0", "a0", [1]⟩ : Doc), ⟨"q1", "a1", [1]⟩].getD
          (argmax (scoresOf [[1], [1]] ((fun _ => [(1:ℚ)]) (strip "hi"))))
          default).answer)] :=
  tie_break_lowest_index (fun _ => [(1:ℚ)])
    [⟨"q0", "a0", [1]⟩, ⟨"q1", "a1", [1]⟩] [[1], [1]] ⟨[], "hi"⟩ 1
    (by decide) (by decide)
    (by
      intro k hk
      have hk2 : k < 2 := by simpa using hk
      interval_cases k <;> norm_num [scoresOf, dot])

/-- Claim C3 counterexample: in a corpus of unit-normalized embeddings in
which record 1 and record 0 carry the same embedding, a query encoding
exactly to record 1's stored embedding is answered with record 0 (the
first occurrence under the max-scan), not record 1 — the records are
distinct (`"a0" ≠ "a1"`), so the claim "record i is the record returned"
fails at `i = 1`. -/
theorem identical_embedding_not_returned :
    (∀ row ∈ ([[(1:ℚ), 0], [(1:ℚ), 0]] : List (List ℚ)), sumSq row = 1) ∧
    ((fun _ : String => [(1:ℚ), 0]) (strip "bail") =
      ([[(1:ℚ), 0], [(1:ℚ), 0]] : List (List ℚ)).getD 1 []) ∧
    (answer_question (fun _ => [(1:ℚ), 0])
        [⟨"q0", "a0", [1, 0]⟩, ⟨"q1", "a1", [1, 0]⟩]
        [[(1:ℚ), 0], [(1:ℚ), 0]] ⟨[], "bail"⟩).chat =
      [("bail", "a0")] ∧
    ("a0" : String) ≠ "a1" := by
  refine ⟨?_, rfl, ?_, by decide⟩
  · intro row hr
    simp only [List.mem_cons, List.not_mem_nil, or_false] at hr
    rcases hr with h | h <;> subst h <;> norm_num [sumSq, dot]
  · have hs : strip "bail" = "bail" := rfl
    have hidx : argmax (scoresOf [[(1:ℚ), 0], [(1:ℚ), 0]] [(1:ℚ), 0]) = 0 := by
      norm_num [scoresOf, dot, argmax]
    simp [answer_question, hs, hidx]

/-- Claim C3 (amended): in a corpus of unit-normalized embeddings, if the
encoded, normalized query vector is identical to the stored embedding of
record `i`, then record `i`'s similarity score equals `1`, the maximum
possible value for unit vectors, and record `i` is the record returned
provided no record with a lower index also attains score `1` (a duplicate
embedding at a lower index is returned instead, as the counterexample
shows). -/
theorem identical_embedding_max_similarity (encode : String → List ℚ)
    (qa_docs : List Doc) (EMB : List (List ℚ)) (s : UIState) (i : Nat)
    (hq : strip s.input_text ≠ "")
    (hunit : ∀ row ∈ EMB, sumSq row = 1)
    (hi : i < EMB.length)
    (henc : encode (strip s.input_text) = EMB.getD i [])
    (hfirst : ∀ j : Nat, j < i →
      (scoresOf EMB (encode (strip s.input_text))).getD j 0 < 1) :
    (scoresOf EMB (encode (strip s.input_text))).getD i 0 = 1 ∧
    (∀ k : Nat, k < EMB.length →
      (scoresOf EMB (encode (strip s.input_text))).getD k 0 ≤ 1) ∧
    argmax (scoresOf EMB (encode (strip s.input_text))) = i ∧
    (answer_question encode qa_docs EMB s).chat =
      s.chat ++ [(strip s.input_text, (qa_docs.getD i default).answer)] := by
  have hvunit : sumSq (encode (strip s.input_text)) = 1 := by
    rw [henc]
    exact hunit _ (getD_mem EMB i [] hi)
  have hA : (scoresOf EMB (encode (strip s.input_text))).getD i 0 = 1 := by
    rw [getD_scoresOf _ EMB i hi, ← henc]
    exact hvunit
  have hB : ∀ k : Nat, k < EMB.length →
      (scoresOf EMB (encode (strip s.input_text))).getD k 0 ≤ 1 := by
    intro k hk
    rw [getD_scoresOf _ EMB k hk]
    exact dot_le_one _ _ (hunit _ (getD_mem EMB k [] hk)) hvunit
  have hslen : (scoresOf EMB (encode (strip s.input_text))).length =
      EMB.length := by simp [scoresOf]
  have hC : argmax (scoresOf EMB (encode (strip s.input_text))) = i := by
    obtain ⟨hle, heq⟩ := argmax_least (scoresOf EMB (encode (strip s.input_text)))
      i (by rw [hslen]; exact hi)
      (by
        intro k hk
        rw [hA]
        exact hB k (by rw [← hslen]; exact hk))
    rcases Nat.lt_or_ge (argmax (scoresOf EMB (encode (strip s.input_text)))) i
      with hlt | hge
    · exfalso
      have h1 := hfirst _ hlt
      rw [heq, hA] at h1
      exact lt_irrefl 1 h1
    · omega
  refine ⟨hA, hB, hC, ?_⟩
  rw [show (answer_question encode qa_docs EMB s).chat =
      s.chat ++ [(strip s.input_text,
        (qa_docs.getD (argmax (scoresOf EMB (encode (strip s.input_text))))
          default).answer)] from by simp [answer_question, hq], hC]

theorem identical_embedding_max_similarity_witness :
    (scoresOf [[(0:ℚ), 1], [(1:ℚ), 0]]
        ((fun _ => [(1:ℚ), 0]) (strip "hi"))).getD 1 0 = 1 ∧
    (∀ k : Nat, k < ([[(0:ℚ), 1], [(1:ℚ), 0]] : List (List ℚ)).length →
      (scoresOf [[(0:ℚ), 1], [(1:ℚ), 0]]
        ((fun _ => [(1:ℚ), 0]) (strip "hi"))).getD k 0 ≤ 1) ∧
    argmax (scoresOf [[(0:ℚ), 1], [(1:ℚ), 0]]
      ((fun _ => [(1:ℚ), 0]) (strip "hi"))) = 1 ∧
    (answer_question (fun _ => [(1:ℚ), 0])
        [⟨"q0", "a0", [0, 1]⟩, ⟨"q1", "a1", [1, 0]⟩]
        [[(0:ℚ), 1], [(1:ℚ), 0]] ⟨[], "hi"⟩).chat =
      [] ++ [(strip "hi",
        ([(⟨"q0", "a0", [0, 1]⟩ : Doc), ⟨"q1", "a1", [1, 0]⟩].getD 1
          default).answer)] :=
  identical_embedding_max_similarity (fun _ => [(1:ℚ), 0])
    [⟨"q0", "a0", [0, 1]⟩, ⟨"q1", "a1", [1, 0]⟩]
    [[(0:ℚ), 1], [(1:ℚ), 0]] ⟨[], "hi"⟩ 1
    (by decide)
    (by
      intro row hr
      simp only [List.mem_cons, List.not_mem_nil, or_false] at hr
      rcases hr with h | h <;> subst h <;> norm_num [sumSq, dot])
    (by decide)
    rfl
    (by
      intro j hj
      have hj0 : j = 0 := by omega
      subst hj0
      norm_num [scoresOf, dot])

/-- Claim C4: after a successful `load_qas`, the document list is returned
unchanged, the stacked matrix has one row per record, row `i` is exactly
record `i`'s raw embedding divided by its L2 norm (row/record
correspondence), and — provided every raw embedding is non-zero — every
row has unit L2 norm (`sumSq` equal to `1`). -/
theorem load_qas_rows_unit_norm (docs : List Doc) (norms : List ℚ)
    (ds : List Doc) (emb : List (List ℚ))
    (hok : load_qas true docs norms = .ok (ds, emb))
    (hlen : norms.length = docs.length)
    (hnorm : ∀ i : Nat, i < docs.length →
      IsL2Norm (norms.getD i 0) ((docs.getD i default).embedding))
    (hnz : ∀ i : Nat, i < docs.length →
      sumSq ((docs.getD i default).embedding) ≠ 0) :
    ds = docs ∧ emb.length = docs.length ∧
    ∀ i : Nat, i < docs.length →
      emb.getD i [] =
        divByNorm (norms.getD i 0) ((docs.getD i default).embedding) ∧
      sumSq (emb.getD i []) = 1 := by
  by_cases hd : docs = []
  · simp [load_qas, hd] at hok
  · simp [load_qas, hd] at hok
    obtain ⟨h1, h2⟩ := hok
    subst h1
    subst h2
    refine ⟨rfl, ?_, ?_⟩
    · simp [List.length_zipWith, hlen]
    · intro i hi
      have hrow : (List.zipWith divByNorm norms (docs.map Doc.embedding)).getD
          i [] = divByNorm (norms.getD i 0) ((docs.getD i default).embedding) := by
        rw [getD_zipWith_divByNorm norms (docs.map Doc.embedding) i
          (by rw [hlen]; exact hi) (by simpa using hi)]
        rw [getD_map_embedding docs i hi]
      refine ⟨hrow, ?_⟩
      rw [hrow, sumSq_divByNorm, (hnorm i hi).2]
      exact div_self (hnz i hi)

theorem load_qas_rows_unit_norm_witness :
    [(⟨"q", "a", [3, 4]⟩ : Doc)] = [(⟨"q", "a", [3, 4]⟩ : Doc)] ∧
    (List.zipWith divByNorm [(5:ℚ)]
        ([(⟨"q", "a", [3, 4]⟩ : Doc)].map Doc.embedding)).length =
      [(⟨"q", "a", [3, 4]⟩ : Doc)].length ∧
    ∀ i : Nat, i < [(⟨"q", "a", [3, 4]⟩ : Doc)].length →
      (List.zipWith divByNorm [(5:ℚ)]
          ([(⟨"q", "a", [3, 4]⟩ : Doc)].map Doc.embedding)).getD i [] =
        divByNorm ([(5:ℚ)].getD i 0)
          (([(⟨"q", "a", [3, 4]⟩ : Doc)].getD i default).embedding) ∧
      sumSq ((List.zipWith divByNorm [(5:ℚ)]
          ([(⟨"q", "a", [3, 4]⟩ : Doc)].map Doc.embedding)).getD i []) = 1 :=
  load_qas_rows_unit_norm [⟨"q", "a", [3, 4]⟩] [5] _ _ rfl (by decide)
    (by
      intro i hi
      have h0 : i = 0 := by simp at hi; omega
      subst h0
      constructor
      · norm_num
      · norm_num [sumSq, dot])
    (by
      intro i hi
      have h0 : i = 0 := by simp at hi; omega
      subst h0
      norm_num [sumSq, dot])

/-- Claim C5 (the code lacks the guard the claim requires): with a stored
embedding that is exactly the zero vector, the L2 norm the source computes
is `0` (`IsL2Norm 0 [0, 0]`), yet `load_qas` performs the division anyway
and returns a successful result — no `InvalidEmbeddingError` (or error of
any kind) is raised — and the resulting row is junk rather than unit-norm:
over floats the `0/0` division propagates NaN into the similarity
computation; in the ℚ model division by zero yields the zero row, whose
`sumSq` is `0 ≠ 1`. -/
theorem zero_embedding_unguarded :
    IsL2Norm 0 [(0:ℚ), 0] ∧
    load_qas true [⟨"q", "a", [0, 0]⟩] [0] =
      .ok ([⟨"q", "a", [0, 0]⟩], [divByNorm 0 [0, 0]]) ∧
    sumSq (divByNorm 0 [(0:ℚ), 0]) ≠ 1 := by
  refine ⟨?_, rfl, ?_⟩
  · constructor
    · norm_num
    · norm_num [sumSq, dot]
  · norm_num [divByNorm, sumSq, dot]

/-- Claim C6: corpus initialization fails with a `DataLoadError` whenever
the Answer Store is unreachable or returns zero records, and a successful
load guarantees a non-empty corpus from a reachable store — the system
halts before serving any query rather than silently proceeding with no
answers. -/
theorem load_qas_error_on_empty_or_unreachable (reachable : Bool)
    (docs : List Doc) (norms : List ℚ) :
    (docs = [] ∨ reachable = false →
      ∃ e : DataLoadError, load_qas reachable docs norms = .error e) ∧
    (∀ (ds : List Doc) (emb : List (List ℚ)),
      load_qas reachable docs norms = .ok (ds, emb) →
      ds ≠ [] ∧ reachable = true) := by
  constructor
  · rintro (hd | hr)
    · cases reachable with
      | false => exact ⟨.unreachable, by simp [load_qas]⟩
      | true => exact ⟨.emptyCorpus, by simp [load_qas, hd]⟩
    · subst hr
      exact ⟨.unreachable, by simp [load_qas]⟩
  · intro ds emb hok
    cases reachable with
    | false => simp [load_qas] at hok
    | true =>
        by_cases hd : docs = []
        · simp [load_qas, hd] at hok
        · simp [load_qas, hd] at hok
          obtain ⟨h1, h2⟩ := hok
          subst h1
          exact ⟨hd, rfl⟩

theorem load_qas_error_witness :
    ∃ e : DataLoadError, load_qas true ([] : List Doc) [] = .error e :=
  (load_qas_error_on_empty_or_unreachable true [] []).1 (Or.inl rfl)

/-- Claim C9: registering a username already present in the credential
store fails with `AlreadyExistsError` and leaves the store (in particular
the existing record) unmodified; a successful registration appends exactly
one record whose stored `password` field is the salted hash
`hashpw raw salt` — the raw password is stored only through the hashing
routine, never as-is. -/
theorem register_conflict_and_hash (hashpw : String → String → String)
    (salt : String) (store : List UserRec) (u nm email rawPwd : String) :
    ((find_one store u).isSome →
      registerHandler hashpw salt store u nm email rawPwd =
        (store, some .alreadyExists)) ∧
    ((find_one store u).isSome = false →
      (registerHandler hashpw salt store u nm email rawPwd).2 = none ∧
      (registerHandler hashpw salt store u nm email rawPwd).1 =
        store ++ [⟨u, nm, email, hashpw rawPwd salt⟩] ∧
      ∀ r : UserRec,
        r ∈ (registerHandler hashpw salt store u nm email rawPwd).1 →
        r ∉ store → r.password = hashpw rawPwd salt) := by
  constructor
  · intro h
    simp [registerHandler, h]
  · intro h
    have h2 : ¬ (find_one store u).isSome := by simp [h]
    refine ⟨by simp [registerHandler, h2], by simp [registerHandler, h2], ?_⟩
    intro r hr hns
    simp only [registerHandler, if_neg h2] at hr
    rcases List.mem_append.mp hr with hin | hin
    · exact absurd hin hns
    · simp only [List.mem_cons, List.not_mem_nil, or_false] at hin
      subst hin
      rfl

theorem register_conflict_and_hash_witness :
    (registerHandler (fun p s => s ++ p) "s!" [⟨"u", "n", "e", "h"⟩]
        "u" "n2" "e2" "raw" = ([⟨"u", "n", "e", "h"⟩], some .alreadyExists)) ∧
    ((registerHandler (fun p s => s ++ p) "s!" [⟨"u", "n", "e", "h"⟩]
        "v" "n2" "e2" "raw").2 = none ∧
      (registerHandler (fun p s => s ++ p) "s!" [⟨"u", "n", "e", "h"⟩]
          "v" "n2" "e2" "raw").1 =
        [⟨"u", "n", "e", "h"⟩] ++ [⟨"v", "n2", "e2",
          (fun (p s : String) => s ++ p) "raw" "s!"⟩] ∧
      ∀ r : UserRec,
        r ∈ (registerHandler (fun p s => s ++ p) "s!" [⟨"u", "n", "e", "h"⟩]
          "v" "n2" "e2" "raw").1 →
        r ∉ [(⟨"u", "n", "e", "h"⟩ : UserRec)] →
        r.password = (fun (p s : String) => s ++ p) "raw" "s!") :=
  ⟨(register_conflict_and_hash (fun p s => s ++ p) "s!" [⟨"u", "n", "e", "h"⟩]
      "u" "n2" "e2" "raw").1 (by decide),
   (register_conflict_and_hash (fun p s => s ++ p) "s!" [⟨"u", "n", "e", "h"⟩]
      "v" "n2" "e2" "raw").2 (by decide)⟩

end JAI
